import Mathlib

/-!
Verification development for the Smith-Waterman local-alignment engine
implemented by class `SWMatrix` in `src/main.py` and `src/main_2.py`.

The two source files are near-duplicates: they differ only in the cross
terms of the `Ix` / `Iy` recurrences in `fillMatrix`.  `main.py` scores a
gap that directly follows a gap of the opposite kind as a fresh gap
opening (`Iy[i-1][j] + o` in the `Ix` recurrence, `Ix[i][j-1] + o` in the
`Iy` recurrence); `main_2.py` replaces that candidate by the literal
sentinel `-1`, which never wins because every recurrence also contains
the candidate `0`.  Both variants are embedded below, selected by the
field `allowOrthogonal` (`true` = `main.py`, `false` = `main_2.py`).

Sequences are 1-indexed in the source: `__init__` stores
`self.seq1 = "\t" + seq1`, so position 0 holds the tab sentinel; the fill
loops run over `range(1, len(self.seq1))`.  The matrices are modelled as
total functions from coordinates to a `Cell`; rows and columns that the
Python loops never touch (row 0 and column 0) hold the zero cell, exactly
as the `pd.DataFrame(0, ...)` initialisation leaves them.
-/

/-- One cell of the dynamic-programming state: the four score values and
the three traceback origins that `fillMatrix` computes at a coordinate.
Fields mirror the seven matrices `M`, `Ix`, `Iy`, `F`, `TM`, `TIx`, `TIy`
of the source. -/
structure Cell where
  M : Int
  Ix : Int
  Iy : Int
  F : Int
  TM : Nat
  TIx : Nat
  TIy : Nat
deriving DecidableEq, Repr

/-- The all-zero cell: the `pd.DataFrame(0, ...)` initial value of all
seven matrices. -/
def zeroCell : Cell := ⟨0, 0, 0, 0, 0, 0, 0⟩

/-- Inputs of one alignment request, as received by `SWMatrix.__init__`:
the similarity lookup `score`, the two raw sequences, the gap-open
penalty `o`, the gap-extend penalty `e`, and the policy flag selecting
which of the two source files is being modelled. -/
structure SWMatrix where
  score : Char → Char → Int
  seq1 : List Char
  seq2 : List Char
  o : Int
  e : Int
  allowOrthogonal : Bool

namespace SWMatrix

/-- `self.seq1 = "\t" + seq1`: the tab-prepended first sequence. -/
def tseq1 (w : SWMatrix) : List Char := '\t' :: w.seq1

/-- `self.seq2 = "\t" + seq2`: the tab-prepended second sequence. -/
def tseq2 (w : SWMatrix) : List Char := '\t' :: w.seq2

/-- `self.seq1[j]` (1-indexed symbol access on the tab-prepended
sequence; out-of-range reads never occur in the reachable source and
default to the tab sentinel). -/
def sym1 (w : SWMatrix) (j : Nat) : Char := (tseq1 w).getD j '\t'

/-- `self.seq2[i]`. -/
def sym2 (w : SWMatrix) (i : Nat) : Char := (tseq2 w).getD i '\t'

/-- Number of columns filled by the loop: `len(self.seq1) - 1`. -/
def n1 (w : SWMatrix) : Nat := w.seq1.length

/-- Number of rows filled by the loop: `len(self.seq2) - 1`. -/
def n2 (w : SWMatrix) : Nat := w.seq2.length

/-- `self.score.at[self.seq1[j], self.seq2[i]]`: the similarity score
looked up when cell `(i, j)` is filled. -/
def simAt (w : SWMatrix) (i j : Nat) : Int := w.score (sym1 w j) (sym2 w i)

/-- `max([a, b, c, d])` over the four candidates of a recurrence. -/
def max4 (a b c d : Int) : Int := max (max (max a b) c) d

/-- `[a, b, c, d].index(max([a, b, c, d]))`: the position of the first
candidate attaining the maximum, as stored into the traceback
matrices. -/
def idx4 (a b c d : Int) : Nat :=
  if a = max4 a b c d then 0
  else if b = max4 a b c d then 1
  else if c = max4 a b c d then 2
  else 3

/-- `max([ret1, ret2, ret3])`, used to fill `F`. -/
def max3 (a b c : Int) : Int := max (max a b) c

/-- Body of the inner `for j in range(1, len(self.seq1))` loop of
`fillMatrix`: given the previous row `prev` (row `i - 1`) as a function
of the column index, compute row `i`.  Column 0 is never written by the
loop and stays at the zero cell.  The cross candidates of the `Ix` and
`Iy` recurrences are `Iy[i-1][j] + o` / `Ix[i][j-1] + o` in `main.py`
(`allowOrthogonal = true`) and the literal `-1` in `main_2.py`. -/
def fillRow (w : SWMatrix) (prev : Nat → Cell) (i : Nat) : Nat → Cell
  | 0 => zeroCell
  | j + 1 =>
    let left := fillRow w prev i j
    let diag := prev j
    let up := prev (j + 1)
    let s := simAt w i (j + 1)
    let a1 := diag.M + s
    let b1 := diag.Ix + s
    let c1 := diag.Iy + s
    let ret1 := max4 a1 b1 c1 0
    let a2 := up.M + w.o
    let b2 := up.Ix + w.e
    let c2 := if w.allowOrthogonal then up.Iy + w.o else -1
    let ret2 := max4 a2 b2 c2 0
    let a3 := left.M + w.o
    let b3 := if w.allowOrthogonal then left.Ix + w.o else -1
    let c3 := left.Iy + w.e
    let ret3 := max4 a3 b3 c3 0
    ⟨ret1, ret2, ret3, max3 ret1 ret2 ret3,
      idx4 a1 b1 c1 0, idx4 a2 b2 c2 0, idx4 a3 b3 c3 0⟩

/-- `fillMatrix`: the full dynamic-programming state after the outer
`for i in range(1, len(self.seq2))` loop.  `fillMatrix w i j` is the
content of cell `(i, j)` of all seven matrices; row 0 is never written
and stays at the zero cell. -/
def fillMatrix (w : SWMatrix) : Nat → Nat → Cell
  | 0 => fun _ => zeroCell
  | i + 1 => fillRow w (fillMatrix w i) (i + 1)

/-- Matrix `M` after the fill. -/
def M (w : SWMatrix) (i j : Nat) : Int := (fillMatrix w i j).M

/-- Matrix `Ix` after the fill. -/
def Ix (w : SWMatrix) (i j : Nat) : Int := (fillMatrix w i j).Ix

/-- Matrix `Iy` after the fill. -/
def Iy (w : SWMatrix) (i j : Nat) : Int := (fillMatrix w i j).Iy

/-- Matrix `F` after the fill. -/
def F (w : SWMatrix) (i j : Nat) : Int := (fillMatrix w i j).F

/-- Traceback matrix `TM` after the fill. -/
def TM (w : SWMatrix) (i j : Nat) : Nat := (fillMatrix w i j).TM

/-- Traceback matrix `TIx` after the fill. -/
def TIx (w : SWMatrix) (i j : Nat) : Nat := (fillMatrix w i j).TIx

/-- Traceback matrix `TIy` after the fill. -/
def TIy (w : SWMatrix) (i j : Nat) : Nat := (fillMatrix w i j).TIy

/-- Maximum of `f 0, ..., f n` (the value of a pandas `max` reduction
over a non-empty axis of length `n + 1`). -/
def maxOver : Nat → (Nat → Int) → Int
  | 0, f => f 0
  | n + 1, f => max (maxOver n f) (f (n + 1))

/-- Position of the first occurrence of the maximum among
`f 0, ..., f n` (pandas `argmax`, which reports the first tie). -/
def argmaxOver : Nat → (Nat → Int) → Nat
  | 0, _ => 0
  | n + 1, f => if maxOver n f < f (n + 1) then n + 1 else argmaxOver n f

/-- `self.F.max()` evaluated at column `j`: the maximum of column `j`
over all rows. -/
def colMax (w : SWMatrix) (j : Nat) : Int := maxOver (n2 w) fun i => F w i j

/-- `getMax`: `self.F.max().max()` — the column-wise maxima reduced
again, i.e. the global maximum of `F`. -/
def getMax (w : SWMatrix) : Int := maxOver (n1 w) fun j => colMax w j

/-- `self.F.max(axis=1)` evaluated at row `i`: the maximum of row `i`
over all columns. -/
def rowMax (w : SWMatrix) (i : Nat) : Int := maxOver (n1 w) fun j => F w i j

/-- `getMaxCoord`: `i = self.F.max(axis=1).argmax()` then
`j = self.F.iloc[i].argmax()`. -/
def getMaxCoord (w : SWMatrix) : Nat × Nat :=
  let i := argmaxOver (n2 w) fun i => rowMax w i
  let j := argmaxOver (n1 w) fun j => F w i j
  (i, j)

/-- The three display lines accumulated across `traceback`,
`completeFront` and `completeBack`: `matchStr1`, `matchLine`,
`matchStr2`. -/
structure TB where
  str1 : List Char
  line : List Char
  str2 : List Char
deriving DecidableEq, Repr

/-- The state constant `MATCH` (state 0 reads matrix `M`). -/
def MATCH : Nat := 0

/-- The state constant `GAP_X` (state 1 reads matrix `Ix`). -/
def GAPX : Nat := 1

/-- The state constant `GAP_Y` (state 2 reads matrix `Iy`). -/
def GAPY : Nat := 2

/-- The state constant `HALT` (state 3 stops the walk). -/
def HALT : Nat := 3

/-- The `while currVal != 0 and state != 3` loop of `traceback`.
Arguments: fuel, current state, `i`, `j`, `currVal`, accumulated lines.
Returns the accumulated lines together with the final `(i, j)` handed to
`completeFront`.  The fuel only bounds the recursion; every reachable
run exits through the loop condition first, because each iteration
strictly decreases `i + j` and every matrix value at row 0 or column 0
is zero.  A state outside `0..3` with a non-zero value would loop
forever in the source; it is unreachable since the traceback matrices
only store `0..3`. -/
def tbLoop (w : SWMatrix) : Nat → Nat → Nat → Nat → Int → TB → TB × Nat × Nat
  | 0, _, i, j, _, t => (t, i, j)
  | fuel + 1, state, i, j, v, t =>
    if v ≠ 0 ∧ state ≠ 3 then
      let bar := if sym1 w j = sym2 w i then '|' else ' '
      let t1 : TB := { t with line := t.line ++ [bar] }
      if state = 0 then
        let t2 : TB := { t1 with str1 := t1.str1 ++ [sym1 w j],
                                 str2 := t1.str2 ++ [sym2 w i] }
        tbLoop w fuel (TM w i j) (i - 1) (j - 1) (M w (i - 1) (j - 1)) t2
      else if state = 1 then
        let t2 : TB := { t1 with str1 := t1.str1 ++ ['-'],
                                 str2 := t1.str2 ++ [sym2 w i] }
        tbLoop w fuel (TIx w i j) (i - 1) j (Ix w (i - 1) j) t2
      else if state = 2 then
        let t2 : TB := { t1 with str1 := t1.str1 ++ [sym1 w j],
                                 str2 := t1.str2 ++ ['-'] }
        tbLoop w fuel (TIy w i j) i (j - 1) (Iy w i (j - 1)) t2
      else (t1, i, j)
    else (t, i, j)

/-- The `while i > 0 or j > 0` loop of `completeFront`.  Each iteration
decrements both indices (Python lets them go negative, where both `if`
guards are false exactly as for the value 0 here), so `i + j` fuel is
always enough. -/
def cFrontAux (w : SWMatrix) : Nat → Nat → Nat → TB → TB
  | 0, _, _, t => t
  | fuel + 1, i, j, t =>
    if 0 < i ∨ 0 < j then
      let c1 := if 0 < j then sym1 w j else ' '
      let c2 := if 0 < i then sym2 w i else ' '
      cFrontAux w fuel (i - 1) (j - 1)
        ⟨t.str1 ++ [c1], t.line ++ [' '], t.str2 ++ [c2]⟩
    else t

/-- `completeFront`: append the `(` markers, then the unconsumed prefix
symbols of both sequences (still in traceback order; the caller reverses
afterwards). -/
def completeFront (w : SWMatrix) (i j : Nat) (t : TB) : TB :=
  cFrontAux w (i + j) i j
    ⟨t.str1 ++ ['('], t.line ++ [' '], t.str2 ++ ['(']⟩

/-- The `while i < len(self.seq2) or j < len(self.seq1)` loop of
`completeBack`. -/
def cBackAux (w : SWMatrix) : Nat → Nat → Nat → TB → TB
  | 0, _, _, t => t
  | fuel + 1, i, j, t =>
    if i < n2 w + 1 ∨ j < n1 w + 1 then
      let c1 := if j < n1 w + 1 then sym1 w j else ' '
      let c2 := if i < n2 w + 1 then sym2 w i else ' '
      cBackAux w fuel (i + 1) (j + 1)
        ⟨t.str1 ++ [c1], t.line ++ [' '], t.str2 ++ [c2]⟩
    else t

/-- `completeBack`: append the `)` markers, then the remaining suffix
symbols of both sequences. -/
def completeBack (w : SWMatrix) (i j : Nat) (t : TB) : TB :=
  cBackAux w (n2 w + 1 + (n1 w + 1)) i j
    ⟨t.str1 ++ [')'], t.line ++ [' '], t.str2 ++ [')']⟩

/-- The core walk of `traceback`: the loop started, as the source does,
in state 0 at the coordinate returned by `getMaxCoord`, reading
`self.M.iat[i, j]` as the initial `currVal`. -/
def tbCoreRun (w : SWMatrix) : TB × Nat × Nat :=
  let p := getMaxCoord w
  tbLoop w (p.1 + p.2 + 1) 0 p.1 p.2 (M w p.1 p.2) ⟨[], [], []⟩

/-- The tail of `traceback` after the loop: `completeFront` at the final
`(i, j)`, reversal of the three lines, then `completeBack` one past the
coordinate `getMaxCoord` returns (queried a second time). -/
def tbAssemble (w : SWMatrix) (r : TB × Nat × Nat) : TB :=
  let t := completeFront w r.2.1 r.2.2 r.1
  let t2 : TB := ⟨t.str1.reverse, t.line.reverse, t.str2.reverse⟩
  let q := getMaxCoord w
  completeBack w (q.1 + 1) (q.2 + 1) t2

/-- `traceback(x, y)`: the arguments seed `i` and `j` but are
immediately overwritten by `getMaxCoord()`, exactly as in the source. -/
def traceback (w : SWMatrix) (x y : Nat) : TB :=
  let i := x
  let j := y
  let p := getMaxCoord w
  let i := p.1
  let j := p.2
  tbAssemble w (tbLoop w (i + j + 1) 0 i j (M w i j) ⟨[], [], []⟩)

/-- The three non-constant candidates of the `M` recurrence at `(i, j)`
(`i, j ≥ 1`), in source order: `M[i-1][j-1]+s`, `Ix[i-1][j-1]+s`,
`Iy[i-1][j-1]+s`. -/
def candM (w : SWMatrix) (i j : Nat) : Int × Int × Int :=
  (M w (i - 1) (j - 1) + simAt w i j,
   Ix w (i - 1) (j - 1) + simAt w i j,
   Iy w (i - 1) (j - 1) + simAt w i j)

/-- The three non-constant candidates of the `Ix` recurrence at `(i, j)`
in source order: `M[i-1][j]+o`, `Ix[i-1][j]+e`, then the cross term
(`Iy[i-1][j]+o` in `main.py`, the sentinel `-1` in `main_2.py`). -/
def candIx (w : SWMatrix) (i j : Nat) : Int × Int × Int :=
  (M w (i - 1) j + w.o,
   Ix w (i - 1) j + w.e,
   if w.allowOrthogonal then Iy w (i - 1) j + w.o else -1)

/-- The three non-constant candidates of the `Iy` recurrence at `(i, j)`
in source order: `M[i][j-1]+o`, then the cross term (`Ix[i][j-1]+o` in
`main.py`, the sentinel `-1` in `main_2.py`), then `Iy[i][j-1]+e`. -/
def candIy (w : SWMatrix) (i j : Nat) : Int × Int × Int :=
  (M w i (j - 1) + w.o,
   if w.allowOrthogonal then Ix w i (j - 1) + w.o else -1,
   Iy w i (j - 1) + w.e)

/-- The `k`-th element of the candidate list `[a, b, c, d]`. -/
def nth4 (a b c d : Int) (k : Nat) : Int :=
  if k = 0 then a else if k = 1 then b else if k = 2 then c else d

/-- `k` is the position of the first element of `[a, b, c, d]` attaining
the maximum of the list: the element at `k` equals the maximum and every
earlier element is strictly below it.  This is what
`[a, b, c, d].index(max([a, b, c, d]))` returns. -/
def FirstMax4 (a b c d : Int) (k : Nat) : Prop :=
  k ≤ 3 ∧ nth4 a b c d k = max4 a b c d ∧
    ∀ l, l < k → nth4 a b c d l < max4 a b c d

/-- Similarity table of the spec's concrete scenario: `+2` for identical
symbols, `-1` otherwise. -/
def simScenario : Char → Char → Int := fun a b => if a = b then 2 else -1

/-- The spec's concrete scenario: `"ACGT"` versus `"AGT"`, open `-2`,
extend `-1`, under the `main.py` recurrence. -/
def wScenario : SWMatrix :=
  ⟨simScenario, ['A', 'C', 'G', 'T'], ['A', 'G', 'T'], -2, -1, true⟩

/-- Similarity table engineered for the double-gap policy scenario:
matches are worth `+5`, mismatches a prohibitive `-100`. -/
def simOrth : Char → Char → Int := fun a b => if a = b then 5 else -100

/-- `"AXB"` versus `"AYB"` under the `main.py` recurrence: the optimal
alignment `A-XB` / `AY-B` needs two adjacent opposite-direction
single-symbol gaps, which the `Iy[i-1][j]+o` cross term permits. -/
def wOrthAllow : SWMatrix :=
  ⟨simOrth, ['A', 'X', 'B'], ['A', 'Y', 'B'], -2, -1, true⟩

/-- The same input under the `main_2.py` recurrence, where the cross
term is the unreachable sentinel `-1`. -/
def wOrthDisallow : SWMatrix :=
  ⟨simOrth, ['A', 'X', 'B'], ['A', 'Y', 'B'], -2, -1, false⟩

/-- An alignment request with both sequences empty. -/
def emptyInput (score : Char → Char → Int) (o e : Int) (allow : Bool) :
    SWMatrix :=
  ⟨score, [], [], o, e, allow⟩

/-- A self-alignment request: both sequences are the same list `s`. -/
def selfInput (score : Char → Char → Int) (s : List Char) (o e : Int)
    (allow : Bool) : SWMatrix :=
  ⟨score, s, s, o, e, allow⟩

/-- The symbols emitted (newest first) by a gap-free traceback walk that
starts at `(k, k)` and consumes the first `k` 1-indexed symbols of
`seq1` on the way down: `[seq1[k], seq1[k-1], ..., seq1[1]]`. -/
def revPref (w : SWMatrix) : Nat → List Char
  | 0 => []
  | k + 1 => sym1 w (k + 1) :: revPref w k

end SWMatrix

namespace SWMatrix

/-! ### Basic facts about the four-way maximum and its first argmax -/

theorem le_max4_a (a b c d : Int) : a ≤ max4 a b c d :=
  le_trans (le_trans (le_max_left a b) (le_max_left _ c)) (le_max_left _ d)

theorem le_max4_b (a b c d : Int) : b ≤ max4 a b c d :=
  le_trans (le_trans (le_max_right a b) (le_max_left _ c)) (le_max_left _ d)

theorem le_max4_c (a b c d : Int) : c ≤ max4 a b c d :=
  le_trans (le_max_right _ c) (le_max_left _ d)

theorem le_max4_d (a b c d : Int) : d ≤ max4 a b c d :=
  le_max_right _ d

theorem max4_le {a b c d x : Int} (ha : a ≤ x) (hb : b ≤ x) (hc : c ≤ x)
    (hd : d ≤ x) : max4 a b c d ≤ x :=
  max_le (max_le (max_le ha hb) hc) hd

theorem max4_choice (a b c d : Int) :
    max4 a b c d = a ∨ max4 a b c d = b ∨ max4 a b c d = c ∨
      max4 a b c d = d := by
  unfold max4
  rcases max_choice (max (max a b) c) d with h | h
  · rw [h]
    rcases max_choice (max a b) c with h2 | h2
    · rw [h2]
      rcases max_choice a b with h3 | h3
      · exact Or.inl h3
      · exact Or.inr (Or.inl h3)
    · exact Or.inr (Or.inr (Or.inl h2))
  · exact Or.inr (Or.inr (Or.inr h))

theorem le_max3_a (a b c : Int) : a ≤ max3 a b c :=
  le_trans (le_max_left a b) (le_max_left _ c)

theorem le_max3_b (a b c : Int) : b ≤ max3 a b c :=
  le_trans (le_max_right a b) (le_max_left _ c)

theorem le_max3_c (a b c : Int) : c ≤ max3 a b c :=
  le_max_right _ c

theorem max3_le {a b c x : Int} (ha : a ≤ x) (hb : b ≤ x) (hc : c ≤ x) :
    max3 a b c ≤ x :=
  max_le (max_le ha hb) hc

/-- `idx4` really is the first-argmax of the candidate list: Python's
`[a, b, c, d].index(max([a, b, c, d]))`. -/
theorem idx4_firstMax (a b c d : Int) : FirstMax4 a b c d (idx4 a b c d) := by
  have ha := le_max4_a a b c d
  have hb := le_max4_b a b c d
  have hc := le_max4_c a b c d
  unfold idx4
  by_cases h1 : a = max4 a b c d
  · rw [if_pos h1]
    exact ⟨by omega, by simpa [nth4] using h1, fun l hl => absurd hl (by omega)⟩
  · rw [if_neg h1]
    have ha' : a < max4 a b c d := lt_of_le_of_ne ha h1
    by_cases h2 : b = max4 a b c d
    · rw [if_pos h2]
      refine ⟨by omega, by simpa [nth4] using h2, ?_⟩
      intro l hl
      interval_cases l
      · simpa [nth4] using ha'
    · rw [if_neg h2]
      have hb' : b < max4 a b c d := lt_of_le_of_ne hb h2
      by_cases h3 : c = max4 a b c d
      · rw [if_pos h3]
        refine ⟨by omega, by simpa [nth4] using h3, ?_⟩
        intro l hl
        interval_cases l
        · simpa [nth4] using ha'
        · simpa [nth4] using hb'
      · rw [if_neg h3]
        have hc' : c < max4 a b c d := lt_of_le_of_ne hc h3
        have hd : max4 a b c d = d := by
          rcases max4_choice a b c d with h | h | h | h
          · exact absurd h.symm h1
          · exact absurd h.symm h2
          · exact absurd h.symm h3
          · exact h
        refine ⟨by omega, by simp [nth4, hd], ?_⟩
        intro l hl
        interval_cases l
        · simpa [nth4] using ha'
        · simpa [nth4] using hb'
        · simpa [nth4] using hc'

/-! ### Equations of the fill recurrence -/

theorem fillMatrix_row0 (w : SWMatrix) (j : Nat) :
    fillMatrix w 0 j = zeroCell := rfl

theorem fillMatrix_col0 (w : SWMatrix) (i : Nat) :
    fillMatrix w i 0 = zeroCell := by
  cases i <;> rfl

theorem M_succ (w : SWMatrix) (i j : Nat) :
    M w (i + 1) (j + 1) =
      max4 (M w i j + simAt w (i + 1) (j + 1))
        (Ix w i j + simAt w (i + 1) (j + 1))
        (Iy w i j + simAt w (i + 1) (j + 1)) 0 := rfl

theorem Ix_succ (w : SWMatrix) (i j : Nat) :
    Ix w (i + 1) (j + 1) =
      max4 (M w i (j + 1) + w.o) (Ix w i (j + 1) + w.e)
        (if w.allowOrthogonal then Iy w i (j + 1) + w.o else -1) 0 := rfl

theorem Iy_succ (w : SWMatrix) (i j : Nat) :
    Iy w (i + 1) (j + 1) =
      max4 (M w (i + 1) j + w.o)
        (if w.allowOrthogonal then Ix w (i + 1) j + w.o else -1)
        (Iy w (i + 1) j + w.e) 0 := rfl

theorem F_succ (w : SWMatrix) (i j : Nat) :
    F w (i + 1) (j + 1) =
      max3 (M w (i + 1) (j + 1)) (Ix w (i + 1) (j + 1))
        (Iy w (i + 1) (j + 1)) := rfl

theorem TM_succ (w : SWMatrix) (i j : Nat) :
    TM w (i + 1) (j + 1) =
      idx4 (M w i j + simAt w (i + 1) (j + 1))
        (Ix w i j + simAt w (i + 1) (j + 1))
        (Iy w i j + simAt w (i + 1) (j + 1)) 0 := rfl

theorem TIx_succ (w : SWMatrix) (i j : Nat) :
    TIx w (i + 1) (j + 1) =
      idx4 (M w i (j + 1) + w.o) (Ix w i (j + 1) + w.e)
        (if w.allowOrthogonal then Iy w i (j + 1) + w.o else -1) 0 := rfl

theorem TIy_succ (w : SWMatrix) (i j : Nat) :
    TIy w (i + 1) (j + 1) =
      idx4 (M w (i + 1) j + w.o)
        (if w.allowOrthogonal then Ix w (i + 1) j + w.o else -1)
        (Iy w (i + 1) j + w.e) 0 := rfl

end SWMatrix

namespace SWMatrix

/-! ### Facts about the pandas-style `max` / first-occurrence `argmax` -/

theorem maxOver_ge (f : Nat → Int) : ∀ n i, i ≤ n → f i ≤ maxOver n f := by
  intro n
  induction n with
  | zero =>
    intro i hi
    have : i = 0 := Nat.le_zero.mp hi
    subst this
    exact le_refl _
  | succ n ih =>
    intro i hi
    rcases Nat.lt_or_ge i (n + 1) with h | h
    · exact le_trans (ih i (Nat.lt_succ_iff.mp h)) (le_max_left _ _)
    · have : i = n + 1 := Nat.le_antisymm hi h
      subst this
      exact le_max_right _ _

theorem maxOver_le (f : Nat → Int) {x : Int} :
    ∀ n, (∀ i, i ≤ n → f i ≤ x) → maxOver n f ≤ x := by
  intro n
  induction n with
  | zero => intro h; exact h 0 (le_refl 0)
  | succ n ih =>
    intro h
    exact max_le (ih fun i hi => h i (Nat.le_succ_of_le hi))
      (h (n + 1) (le_refl _))

theorem maxOver_attained (f : Nat → Int) :
    ∀ n, ∃ i, i ≤ n ∧ maxOver n f = f i := by
  intro n
  induction n with
  | zero => exact ⟨0, le_refl 0, rfl⟩
  | succ n ih =>
    obtain ⟨i, hi, heq⟩ := ih
    rcases max_choice (maxOver n f) (f (n + 1)) with h | h
    · exact ⟨i, Nat.le_succ_of_le hi, by rw [maxOver, h, heq]⟩
    · exact ⟨n + 1, le_refl _, by rw [maxOver, h]⟩

theorem argmaxOver_le (f : Nat → Int) : ∀ n, argmaxOver n f ≤ n := by
  intro n
  induction n with
  | zero => exact le_refl 0
  | succ n ih =>
    rw [argmaxOver]
    split
    · exact le_refl _
    · exact Nat.le_succ_of_le ih

theorem argmaxOver_eq_max (f : Nat → Int) :
    ∀ n, f (argmaxOver n f) = maxOver n f := by
  intro n
  induction n with
  | zero => rfl
  | succ n ih =>
    rw [argmaxOver, maxOver]
    by_cases h : maxOver n f < f (n + 1)
    · rw [if_pos h, max_eq_right (le_of_lt h)]
    · rw [if_neg h, max_eq_left (not_lt.mp h), ih]

theorem argmaxOver_first (f : Nat → Int) :
    ∀ n k, k < argmaxOver n f → f k < maxOver n f := by
  intro n
  induction n with
  | zero => intro k hk; exact absurd hk (by simp [argmaxOver])
  | succ n ih =>
    intro k hk
    rw [argmaxOver] at hk
    rw [maxOver]
    by_cases h : maxOver n f < f (n + 1)
    · rw [if_pos h] at hk
      have hk' : k ≤ n := Nat.lt_succ_iff.mp hk
      calc f k ≤ maxOver n f := maxOver_ge f n k hk'
        _ < f (n + 1) := h
        _ ≤ max (maxOver n f) (f (n + 1)) := le_max_right _ _
    · rw [if_neg h] at hk
      exact lt_of_lt_of_le (ih k hk) (le_max_left _ _)

/-! ### Claim theorems (first batch) -/

/-- Nonnegativity of a single cell, for any input whatsoever: every
score stored by the recurrence is a `max4` whose last candidate is the
literal 0, and `F` is the `max3` of the three scores. -/
theorem cell_nonneg (w : SWMatrix) (i j : Nat) :
    0 ≤ M w i j ∧ 0 ≤ Ix w i j ∧ 0 ≤ Iy w i j ∧ 0 ≤ F w i j := by
  match i, j with
  | 0, j =>
    refine ⟨le_refl 0, le_refl 0, le_refl 0, le_refl 0⟩
  | i + 1, 0 =>
    rw [M, Ix, Iy, F, fillMatrix_col0]
    exact ⟨le_refl 0, le_refl 0, le_refl 0, le_refl 0⟩
  | i + 1, j + 1 =>
    have hM : 0 ≤ M w (i + 1) (j + 1) := by
      rw [M_succ]; exact le_max4_d _ _ _ 0
    have hIx : 0 ≤ Ix w (i + 1) (j + 1) := by
      rw [Ix_succ]; exact le_max4_d _ _ _ 0
    have hIy : 0 ≤ Iy w (i + 1) (j + 1) := by
      rw [Iy_succ]; exact le_max4_d _ _ _ 0
    refine ⟨hM, hIx, hIy, ?_⟩
    rw [F_succ]
    exact le_trans hM (le_max3_a _ _ _)

/-- C5.  After `fillMatrix`, every cell of `M`, `Ix`, `Iy` and `F` is
non-negative, for every similarity table, every pair of sequences and
all non-positive penalties: every candidate score is floored at 0. -/
theorem matrices_nonneg (w : SWMatrix) (i j : Nat)
    (_ho : w.o ≤ 0) (_he : w.e ≤ 0) (_hi : i ≤ n2 w) (_hj : j ≤ n1 w) :
    0 ≤ M w i j ∧ 0 ≤ Ix w i j ∧ 0 ≤ Iy w i j ∧ 0 ≤ F w i j :=
  cell_nonneg w i j

/-- Witness for `matrices_nonneg`, on the spec's concrete scenario at
cell (1, 1). -/
theorem matrices_nonneg_witness :
    0 ≤ M wScenario 1 1 ∧ 0 ≤ Ix wScenario 1 1 ∧ 0 ≤ Iy wScenario 1 1 ∧
      0 ≤ F wScenario 1 1 :=
  matrices_nonneg wScenario 1 1 (by decide) (by decide) (by decide) (by decide)

/-- `F` stores exactly the three-way maximum of `M`, `Ix`, `Iy` at every
coordinate (shared helper). -/
theorem F_components (w : SWMatrix) (i j : Nat) :
    F w i j = max3 (M w i j) (Ix w i j) (Iy w i j) := by
  match i, j with
  | 0, j => rfl
  | i + 1, 0 => rw [M, Ix, Iy, F, fillMatrix_col0]; rfl
  | i + 1, j + 1 => exact F_succ w i j

/-- `F` dominates `M` (shared helper). -/
theorem M_le_F (w : SWMatrix) (i j : Nat) : M w i j ≤ F w i j := by
  rw [F_components w i j]
  exact le_max3_a _ _ _

/-- C6.  After `fillMatrix`, `F[i][j] = max(M[i][j], Ix[i][j], Iy[i][j])`
at every coordinate, including row 0 and column 0 (where all four are
zero), and hence `F` dominates each of the three. -/
theorem F_eq_max_components (w : SWMatrix) (i j : Nat) :
    F w i j = max3 (M w i j) (Ix w i j) (Iy w i j) ∧
      M w i j ≤ F w i j ∧ Ix w i j ≤ F w i j ∧ Iy w i j ≤ F w i j := by
  refine ⟨F_components w i j, M_le_F w i j, ?_, ?_⟩
  · rw [F_components w i j]; exact le_max3_b _ _ _
  · rw [F_components w i j]; exact le_max3_c _ _ _

/-- C4.  In each of the three recurrences, the traceback matrix records
the position of the first candidate (in the listed source order, the
literal 0 last) that attains the maximum — also under ties. -/
theorem traceback_records_first_argmax (w : SWMatrix) (i j : Nat)
    (h1 : 1 ≤ i) (_h2 : i ≤ n2 w) (h3 : 1 ≤ j) (_h4 : j ≤ n1 w) :
    FirstMax4 (candM w i j).1 (candM w i j).2.1 (candM w i j).2.2 0
        (TM w i j) ∧
      FirstMax4 (candIx w i j).1 (candIx w i j).2.1 (candIx w i j).2.2 0
        (TIx w i j) ∧
      FirstMax4 (candIy w i j).1 (candIy w i j).2.1 (candIy w i j).2.2 0
        (TIy w i j) := by
  obtain ⟨i', rfl⟩ : ∃ i', i = i' + 1 :=
    ⟨i - 1, (Nat.succ_pred_eq_of_pos h1).symm⟩
  obtain ⟨j', rfl⟩ : ∃ j', j = j' + 1 :=
    ⟨j - 1, (Nat.succ_pred_eq_of_pos h3).symm⟩
  refine ⟨?_, ?_, ?_⟩
  · rw [TM_succ]
    exact idx4_firstMax _ _ _ 0
  · rw [TIx_succ]
    exact idx4_firstMax _ _ _ 0
  · rw [TIy_succ]
    exact idx4_firstMax _ _ _ 0

/-- Witness for `traceback_records_first_argmax`: the concrete scenario
at cell (2, 3), where all three `M`-candidates tie at the maximum and
position 0 is recorded. -/
theorem traceback_records_first_argmax_witness :
    FirstMax4 (candM wScenario 2 3).1 (candM wScenario 2 3).2.1
        (candM wScenario 2 3).2.2 0 (TM wScenario 2 3) ∧
      FirstMax4 (candIx wScenario 2 3).1 (candIx wScenario 2 3).2.1
        (candIx wScenario 2 3).2.2 0 (TIx wScenario 2 3) ∧
      FirstMax4 (candIy wScenario 2 3).1 (candIy wScenario 2 3).2.1
        (candIy wScenario 2 3).2.2 0 (TIy wScenario 2 3) :=
  traceback_records_first_argmax wScenario 2 3 (by decide) (by decide)
    (by decide) (by decide)

end SWMatrix

namespace SWMatrix

/-! ### Claim theorems: best score, best coordinate, traceback shape -/

/-- Every cell of `F` is bounded by `getMax` (the column-wise double
maximum of the source). -/
theorem getMax_is_ub (w : SWMatrix) :
    ∀ i j, i ≤ n2 w → j ≤ n1 w → F w i j ≤ getMax w := by
  intro i j hi hj
  exact le_trans (maxOver_ge (fun i => F w i j) (n2 w) i hi)
    (maxOver_ge (fun j => colMax w j) (n1 w) j hj)

/-- `getMax` is attained somewhere in the matrix. -/
theorem getMax_attained (w : SWMatrix) :
    ∃ i j, i ≤ n2 w ∧ j ≤ n1 w ∧ F w i j = getMax w := by
  obtain ⟨j, hj, h⟩ := maxOver_attained (fun j => colMax w j) (n1 w)
  obtain ⟨i, hi, h2⟩ := maxOver_attained (fun i => F w i j) (n2 w)
  refine ⟨i, j, hi, hj, ?_⟩
  rw [getMax, h, colMax]
  exact h2.symm

/-- The row-wise double maximum (the reduction used by `getMaxCoord`)
agrees with `getMax` (the column-wise one used by `getMax`). -/
theorem rowNest_eq_getMax (w : SWMatrix) :
    maxOver (n2 w) (fun i => rowMax w i) = getMax w := by
  apply le_antisymm
  · apply maxOver_le
    intro i hi
    obtain ⟨j, hj, h⟩ := maxOver_attained (fun j => F w i j) (n1 w)
    show rowMax w i ≤ getMax w
    rw [rowMax, h]
    exact getMax_is_ub w i j hi hj
  · obtain ⟨i, j, hi, hj, h⟩ := getMax_attained w
    calc getMax w = F w i j := h.symm
      _ ≤ rowMax w i := maxOver_ge (fun j => F w i j) (n1 w) j hj
      _ ≤ maxOver (n2 w) (fun i => rowMax w i) :=
          maxOver_ge (fun i => rowMax w i) (n2 w) i hi

/-- The row index picked by `getMaxCoord` is in range (shared helper). -/
theorem coordFst_le (w : SWMatrix) : (getMaxCoord w).1 ≤ n2 w :=
  argmaxOver_le (fun i => rowMax w i) (n2 w)

/-- The row picked by `getMaxCoord` attains the global maximum (shared
helper). -/
theorem coordFst_rowMax (w : SWMatrix) :
    rowMax w (getMaxCoord w).1 = getMax w := by
  have h := argmaxOver_eq_max (fun i => rowMax w i) (n2 w)
  rw [rowNest_eq_getMax] at h
  simpa using h

/-- The column index picked by `getMaxCoord` is in range (shared
helper). -/
theorem coordSnd_le (w : SWMatrix) : (getMaxCoord w).2 ≤ n1 w :=
  argmaxOver_le (fun j => F w (getMaxCoord w).1 j) (n1 w)

/-- The cell picked by `getMaxCoord` attains its row's maximum (shared
helper). -/
theorem coordSnd_F (w : SWMatrix) :
    F w (getMaxCoord w).1 (getMaxCoord w).2 =
      rowMax w (getMaxCoord w).1 := by
  have h := argmaxOver_eq_max (fun j => F w (getMaxCoord w).1 j) (n1 w)
  simpa [rowMax] using h

/-- C3.  `getMax` returns the global maximum of `F` (it bounds every
cell and is attained), and `getMaxCoord` returns the smallest row index
whose row maximum equals that global maximum, paired with the smallest
column index attaining the row maximum within that row. -/
theorem getMax_getMaxCoord_spec (w : SWMatrix) :
    (∀ i j, i ≤ n2 w → j ≤ n1 w → F w i j ≤ getMax w) ∧
    (∃ i j, i ≤ n2 w ∧ j ≤ n1 w ∧ F w i j = getMax w) ∧
    (getMaxCoord w).1 ≤ n2 w ∧
    rowMax w (getMaxCoord w).1 = getMax w ∧
    (∀ i, i < (getMaxCoord w).1 → rowMax w i < getMax w) ∧
    (getMaxCoord w).2 ≤ n1 w ∧
    F w (getMaxCoord w).1 (getMaxCoord w).2 = rowMax w (getMaxCoord w).1 ∧
    (∀ j, j < (getMaxCoord w).2 →
      F w (getMaxCoord w).1 j < rowMax w (getMaxCoord w).1) := by
  have hc1 : (getMaxCoord w).1 = argmaxOver (n2 w) (fun i => rowMax w i) := rfl
  have hc2 : (getMaxCoord w).2 =
      argmaxOver (n1 w) (fun j => F w (getMaxCoord w).1 j) := rfl
  refine ⟨getMax_is_ub w, getMax_attained w, coordFst_le w, coordFst_rowMax w,
    ?_, coordSnd_le w, coordSnd_F w, ?_⟩
  · intro i hi
    rw [hc1] at hi
    have h := argmaxOver_first (fun i => rowMax w i) (n2 w) i hi
    rw [rowNest_eq_getMax] at h
    simpa using h
  · intro j hj
    rw [hc2] at hj
    have h := argmaxOver_first (fun j => F w (getMaxCoord w).1 j) (n1 w) j hj
    simpa [rowMax] using h

/-- Witness for `getMax_getMaxCoord_spec`, on the concrete scenario:
cell (3, 4) is bounded by the best score, and row 2 (strictly before the
winning row 3) has a row maximum below it. -/
theorem getMax_getMaxCoord_spec_witness :
    F wScenario 3 4 ≤ getMax wScenario ∧
      rowMax wScenario 2 < getMax wScenario := by
  have h := getMax_getMaxCoord_spec wScenario
  refine ⟨h.1 3 4 (by decide) (by decide), ?_⟩
  have h5 := h.2.2.2.2.1 2 (by decide)
  simpa using h5

/-- C2.  `traceback` always begins the walk in state `MATCH` at the
coordinate returned by `getMaxCoord`, reading `M[i*][j*]` as the initial
loop value — with no inspection of which of `M`, `Ix`, `Iy` attained
`F[i*][j*]` (the equation holds for every input, with no side condition
on where the maximum lives). -/
theorem traceback_starts_in_MATCH_at_maxCoord (w : SWMatrix) (x y : Nat) :
    traceback w x y =
      tbAssemble w
        (tbLoop w ((getMaxCoord w).1 + (getMaxCoord w).2 + 1) MATCH
          (getMaxCoord w).1 (getMaxCoord w).2
          (M w (getMaxCoord w).1 (getMaxCoord w).2) ⟨[], [], []⟩) := rfl

/-- C10.  The `x`, `y` arguments of `traceback` are dead: they are
overwritten by `getMaxCoord()` before first use, so any two argument
pairs produce identical display lines. -/
theorem traceback_ignores_arguments (w : SWMatrix) (x y u v : Nat) :
    traceback w x y = traceback w u v := rfl

/-- C9.  Zero-length sequences are degenerate, not an error: the
matrices collapse to the 1x1 zero base case, `getMax` returns 0, the
core walk emits nothing, and the display lines are just the empty
context markers. -/
theorem empty_sequences_degenerate (score : Char → Char → Int) (o e : Int)
    (allow : Bool) (x y : Nat) :
    n1 (emptyInput score o e allow) = 0 ∧
    n2 (emptyInput score o e allow) = 0 ∧
    fillMatrix (emptyInput score o e allow) 0 0 = zeroCell ∧
    getMax (emptyInput score o e allow) = 0 ∧
    (tbCoreRun (emptyInput score o e allow)).1 = ⟨[], [], []⟩ ∧
    traceback (emptyInput score o e allow) x y =
      ⟨['(', ')'], [' ', ' '], ['(', ')']⟩ :=
  ⟨rfl, rfl, rfl, rfl, rfl, rfl⟩

/-- Counterexample to C1 as stated: on the scenario input the walk emits
only the two match columns `G`, `T` (in traceback order), and no gap
symbol appears anywhere on either display line — the bottom line does
not show `A-GT` in the aligned region. -/
theorem scenario_ACGT_claimed_alignment_refuted :
    (tbCoreRun wScenario).1.str1 = ['T', 'G'] ∧
    (tbCoreRun wScenario).1.str2 = ['T', 'G'] ∧
    '-' ∉ (traceback wScenario 0 0).str1 ∧
    '-' ∉ (traceback wScenario 0 0).str2 := by decide

/-- C1 (amended).  On the scenario input the best score is 4 — one gap
opened for the missing `C` (three `+2` matches plus the `-2` open) —
but the aligned region the traceback displays is the gapless co-optimal
`GT` / `GT` (with `|` under both columns); `A` and `C` end up in the
front context: the lines are `AC(GT)`, `   || `, ` A(GT)`. -/
theorem scenario_ACGT_actual_output :
    getMax wScenario = 4 ∧
    getMaxCoord wScenario = (3, 4) ∧
    traceback wScenario 0 0 =
      ⟨['A', 'C', '(', 'G', 'T', ')'],
       [' ', ' ', ' ', '|', '|', ' '],
       [' ', 'A', '(', 'G', 'T', ')']⟩ := by decide

/-- C8.  An input needing two adjacent opposite-direction single-symbol
gaps (`A-XB` / `AY-B`): the `main.py` recurrence scores it
`5 - 2 - 2 + 5 = 6`, while the `main_2.py` recurrence, whose cross term
is the sentinel, can do no better than the single match `A` or `B`
(score 5) — the two policies produce different best scores. -/
theorem orthogonal_policy_changes_best_score :
    getMax wOrthAllow = 6 ∧ getMax wOrthDisallow = 5 ∧
      getMax wOrthAllow ≠ getMax wOrthDisallow := by decide

end SWMatrix

namespace SWMatrix

/-! ### Self-alignment analysis -/

theorem max4_eq_a {a b c d : Int} (hb : b ≤ a) (hc : c ≤ a) (hd : d ≤ a) :
    max4 a b c d = a := by
  unfold max4
  rw [max_eq_left hb, max_eq_left hc, max_eq_left hd]

theorem idx4_eq_a {a b c d : Int} (h : a = max4 a b c d) :
    idx4 a b c d = 0 := by
  unfold idx4
  rw [if_pos h]

/-- Upper-bound invariant of the fill: when every similarity value is at
most `ms > 0` and both penalties are non-positive, every score is at most
`min i j * ms` (no alignment ending at `(i, j)` can beat `min i j`
perfect matches). -/
theorem cell_upper (w : SWMatrix) (ms : Int)
    (hs : ∀ a b, w.score a b ≤ ms) (hms : 0 < ms)
    (ho : w.o ≤ 0) (he : w.e ≤ 0) :
    ∀ i j, M w i j ≤ ((min i j : Nat) : Int) * ms ∧
      Ix w i j ≤ ((min i j : Nat) : Int) * ms ∧
      Iy w i j ≤ ((min i j : Nat) : Int) * ms := by
  intro i
  induction i with
  | zero =>
    intro j
    simp only [Nat.zero_min, Nat.cast_zero, zero_mul]
    exact ⟨le_of_eq rfl, le_of_eq rfl, le_of_eq rfl⟩
  | succ i ihi =>
    intro j
    induction j with
    | zero =>
      simp only [Nat.min_zero, Nat.cast_zero, zero_mul]
      rw [M, Ix, Iy, fillMatrix_col0]
      exact ⟨le_of_eq rfl, le_of_eq rfl, le_of_eq rfl⟩
    | succ j ihj =>
      have hBpos : 0 ≤ ((min (i + 1) (j + 1) : Nat) : Int) * ms :=
        mul_nonneg (Int.natCast_nonneg _) (le_of_lt hms)
      have hstep : ((min i j : Nat) : Int) * ms + ms =
          ((min (i + 1) (j + 1) : Nat) : Int) * ms := by
        rw [Nat.succ_min_succ]
        push_cast
        ring
      have hm1 : ((min i (j + 1) : Nat) : Int) * ms ≤
          ((min (i + 1) (j + 1) : Nat) : Int) * ms := by
        have h : (min i (j + 1) : Nat) ≤ min (i + 1) (j + 1) :=
          min_le_min (Nat.le_succ i) (le_refl _)
        exact mul_le_mul_of_nonneg_right (by exact_mod_cast h) (le_of_lt hms)
      have hm2 : ((min (i + 1) j : Nat) : Int) * ms ≤
          ((min (i + 1) (j + 1) : Nat) : Int) * ms := by
        have h : (min (i + 1) j : Nat) ≤ min (i + 1) (j + 1) :=
          min_le_min (le_refl _) (Nat.le_succ j)
        exact mul_le_mul_of_nonneg_right (by exact_mod_cast h) (le_of_lt hms)
      obtain ⟨hdM, hdIx, hdIy⟩ := ihi j
      obtain ⟨huM, huIx, huIy⟩ := ihi (j + 1)
      obtain ⟨hlM, hlIx, hlIy⟩ := ihj
      refine ⟨?_, ?_, ?_⟩
      · rw [M_succ]
        apply max4_le
        · calc M w i j + simAt w (i + 1) (j + 1) ≤
              ((min i j : Nat) : Int) * ms + ms := add_le_add hdM (hs _ _)
            _ = _ := hstep
        · calc Ix w i j + simAt w (i + 1) (j + 1) ≤
              ((min i j : Nat) : Int) * ms + ms := add_le_add hdIx (hs _ _)
            _ = _ := hstep
        · calc Iy w i j + simAt w (i + 1) (j + 1) ≤
              ((min i j : Nat) : Int) * ms + ms := add_le_add hdIy (hs _ _)
            _ = _ := hstep
        · exact hBpos
      · rw [Ix_succ]
        apply max4_le
        · calc M w i (j + 1) + w.o ≤ ((min i (j + 1) : Nat) : Int) * ms + 0 :=
              add_le_add huM ho
            _ = ((min i (j + 1) : Nat) : Int) * ms := add_zero _
            _ ≤ _ := hm1
        · calc Ix w i (j + 1) + w.e ≤ ((min i (j + 1) : Nat) : Int) * ms + 0 :=
              add_le_add huIx he
            _ = ((min i (j + 1) : Nat) : Int) * ms := add_zero _
            _ ≤ _ := hm1
        · by_cases hA : w.allowOrthogonal
          · rw [if_pos hA]
            calc Iy w i (j + 1) + w.o ≤
                ((min i (j + 1) : Nat) : Int) * ms + 0 := add_le_add huIy ho
              _ = ((min i (j + 1) : Nat) : Int) * ms := add_zero _
              _ ≤ _ := hm1
          · rw [if_neg hA]
            exact le_trans (by norm_num) hBpos
        · exact hBpos
      · rw [Iy_succ]
        apply max4_le
        · calc M w (i + 1) j + w.o ≤ ((min (i + 1) j : Nat) : Int) * ms + 0 :=
              add_le_add hlM ho
            _ = ((min (i + 1) j : Nat) : Int) * ms := add_zero _
            _ ≤ _ := hm2
        · by_cases hA : w.allowOrthogonal
          · rw [if_pos hA]
            calc Ix w (i + 1) j + w.o ≤
                ((min (i + 1) j : Nat) : Int) * ms + 0 := add_le_add hlIx ho
              _ = ((min (i + 1) j : Nat) : Int) * ms := add_zero _
              _ ≤ _ := hm2
          · rw [if_neg hA]
            exact le_trans (by norm_num) hBpos
        · calc Iy w (i + 1) j + w.e ≤ ((min (i + 1) j : Nat) : Int) * ms + 0 :=
              add_le_add hlIy he
            _ = ((min (i + 1) j : Nat) : Int) * ms := add_zero _
            _ ≤ _ := hm2
        · exact hBpos

/-- `F` obeys the same upper bound. -/
theorem F_upper (w : SWMatrix) (ms : Int)
    (hs : ∀ a b, w.score a b ≤ ms) (hms : 0 < ms)
    (ho : w.o ≤ 0) (he : w.e ≤ 0) (i j : Nat) :
    F w i j ≤ ((min i j : Nat) : Int) * ms := by
  obtain ⟨h1, h2, h3⟩ := cell_upper w ms hs hms ho he i j
  rw [F_components w i j]
  exact max3_le h1 h2 h3

/-- On a self-alignment input, the similarity looked up on the diagonal
is always the match score. -/
theorem self_simAt (score : Char → Char → Int) (s : List Char) (o e : Int)
    (allow : Bool) (ms : Int) (hq : ∀ a, score a a = ms) (k : Nat) :
    simAt (selfInput score s o e allow) k k = ms := by
  show score (sym1 (selfInput score s o e allow) k)
    (sym2 (selfInput score s o e allow) k) = ms
  exact hq _

/-- On a self-alignment input the diagonal of `M` is exactly
`i * matchScore`: the match candidate from the previous diagonal cell
always wins. -/
theorem self_diag_M (score : Char → Char → Int) (s : List Char) (o e : Int)
    (allow : Bool) (ms : Int) (hms : 0 < ms) (hq : ∀ a, score a a = ms)
    (hs : ∀ a b, score a b ≤ ms) (ho : o ≤ 0) (he : e ≤ 0) :
    ∀ i, M (selfInput score s o e allow) i i = (i : Int) * ms := by
  intro i
  induction i with
  | zero => simp [M, fillMatrix, zeroCell]
  | succ i ih =>
    have hup := cell_upper (selfInput score s o e allow) ms hs hms ho he i i
    have hIx := hup.2.1
    have hIy := hup.2.2
    rw [Nat.min_self] at hIx hIy
    rw [M_succ, self_simAt score s o e allow ms hq, ih]
    have hb : Ix (selfInput score s o e allow) i i + ms ≤ (i : Int) * ms + ms :=
      add_le_add hIx (le_refl ms)
    have hc : Iy (selfInput score s o e allow) i i + ms ≤ (i : Int) * ms + ms :=
      add_le_add hIy (le_refl ms)
    have h0 : (0 : Int) ≤ (i : Int) * ms + ms := by
      have := mul_nonneg (Int.natCast_nonneg i) (le_of_lt hms)
      linarith
    rw [max4_eq_a hb hc h0]
    push_cast
    ring

/-- On a self-alignment input the diagonal of `TM` is always `MATCH`:
the first candidate attains the maximum at every diagonal cell. -/
theorem self_diag_TM (score : Char → Char → Int) (s : List Char) (o e : Int)
    (allow : Bool) (ms : Int) (hms : 0 < ms) (hq : ∀ a, score a a = ms)
    (hs : ∀ a b, score a b ≤ ms) (ho : o ≤ 0) (he : e ≤ 0) :
    ∀ i, TM (selfInput score s o e allow) (i + 1) (i + 1) = 0 := by
  intro i
  have hup := cell_upper (selfInput score s o e allow) ms hs hms ho he i i
  have hIx := hup.2.1
  have hIy := hup.2.2
  rw [Nat.min_self] at hIx hIy
  have hMi := self_diag_M score s o e allow ms hms hq hs ho he i
  rw [TM_succ, self_simAt score s o e allow ms hq, hMi]
  have hb : Ix (selfInput score s o e allow) i i + ms ≤ (i : Int) * ms + ms :=
    add_le_add hIx (le_refl ms)
  have hc : Iy (selfInput score s o e allow) i i + ms ≤ (i : Int) * ms + ms :=
    add_le_add hIy (le_refl ms)
  have h0 : (0 : Int) ≤ (i : Int) * ms + ms := by
    have := mul_nonneg (Int.natCast_nonneg i) (le_of_lt hms)
    linarith
  exact idx4_eq_a (max4_eq_a hb hc h0).symm

/-- On a self-alignment input the best score is exactly
`len(s) * matchScore`. -/
theorem self_getMax (score : Char → Char → Int) (s : List Char) (o e : Int)
    (allow : Bool) (ms : Int) (hms : 0 < ms) (hq : ∀ a, score a a = ms)
    (hs : ∀ a b, score a b ≤ ms) (ho : o ≤ 0) (he : e ≤ 0) :
    getMax (selfInput score s o e allow) = (s.length : Int) * ms := by
  have hub : ∀ i j, i ≤ s.length → F (selfInput score s o e allow) i j ≤
      (s.length : Int) * ms := by
    intro i j hi
    calc F (selfInput score s o e allow) i j ≤ ((min i j : Nat) : Int) * ms :=
        F_upper (selfInput score s o e allow) ms hs hms ho he i j
      _ ≤ (s.length : Int) * ms := by
        have h : (min i j : Nat) ≤ s.length := le_trans (min_le_left i j) hi
        exact mul_le_mul_of_nonneg_right (by exact_mod_cast h) (le_of_lt hms)
  apply le_antisymm
  · rw [getMax]
    apply maxOver_le
    intro j _
    show colMax (selfInput score s o e allow) j ≤ _
    rw [colMax]
    apply maxOver_le
    intro i hi
    exact hub i j hi
  · calc (s.length : Int) * ms
        = M (selfInput score s o e allow) s.length s.length :=
          (self_diag_M score s o e allow ms hms hq hs ho he s.length).symm
      _ ≤ F (selfInput score s o e allow) s.length s.length :=
          M_le_F (selfInput score s o e allow) s.length s.length
      _ ≤ getMax (selfInput score s o e allow) :=
          getMax_is_ub (selfInput score s o e allow) s.length s.length
            (le_refl _) (le_refl _)

/-- On a self-alignment input `getMaxCoord` lands on the bottom-right
diagonal corner `(len(s), len(s))`: no other row attains the global
maximum, and within the last row no earlier column attains it. -/
theorem self_getMaxCoord (score : Char → Char → Int) (s : List Char)
    (o e : Int) (allow : Bool) (ms : Int) (hms : 0 < ms)
    (hq : ∀ a, score a a = ms) (hs : ∀ a b, score a b ≤ ms)
    (ho : o ≤ 0) (he : e ≤ 0) :
    getMaxCoord (selfInput score s o e allow) = (s.length, s.length) := by
  have hgm := self_getMax score s o e allow ms hms hq hs ho he
  have hc1le : (getMaxCoord (selfInput score s o e allow)).1 ≤ s.length :=
    coordFst_le (selfInput score s o e allow)
  have hrm : rowMax (selfInput score s o e allow)
      (getMaxCoord (selfInput score s o e allow)).1 = (s.length : Int) * ms := by
    rw [coordFst_rowMax (selfInput score s o e allow), hgm]
  have hrmub : rowMax (selfInput score s o e allow)
      (getMaxCoord (selfInput score s o e allow)).1 ≤
      (((getMaxCoord (selfInput score s o e allow)).1 : Nat) : Int) * ms := by
    rw [rowMax]
    apply maxOver_le
    intro j _
    calc F (selfInput score s o e allow) _ j ≤ ((min _ j : Nat) : Int) * ms :=
        F_upper (selfInput score s o e allow) ms hs hms ho he _ j
      _ ≤ _ := by
        have h : (min (getMaxCoord (selfInput score s o e allow)).1 j : Nat) ≤
            (getMaxCoord (selfInput score s o e allow)).1 := min_le_left _ _
        exact mul_le_mul_of_nonneg_right (by exact_mod_cast h) (le_of_lt hms)
  have h1 : (getMaxCoord (selfInput score s o e allow)).1 = s.length := by
    have hmul : (s.length : Int) * ms ≤
        (((getMaxCoord (selfInput score s o e allow)).1 : Nat) : Int) * ms :=
      hrm ▸ hrmub
    have hle : (s.length : Int) ≤
        (((getMaxCoord (selfInput score s o e allow)).1 : Nat) : Int) :=
      le_of_mul_le_mul_right hmul hms
    have hle' : s.length ≤ (getMaxCoord (selfInput score s o e allow)).1 := by
      exact_mod_cast hle
    omega
  have hFj : F (selfInput score s o e allow)
      (getMaxCoord (selfInput score s o e allow)).1
      (getMaxCoord (selfInput score s o e allow)).2 =
      rowMax (selfInput score s o e allow)
        (getMaxCoord (selfInput score s o e allow)).1 :=
    coordSnd_F (selfInput score s o e allow)
  have hc2le : (getMaxCoord (selfInput score s o e allow)).2 ≤ s.length :=
    coordSnd_le (selfInput score s o e allow)
  have h2 : (getMaxCoord (selfInput score s o e allow)).2 = s.length := by
    have hFub : F (selfInput score s o e allow)
        (getMaxCoord (selfInput score s o e allow)).1
        (getMaxCoord (selfInput score s o e allow)).2 ≤
        (((getMaxCoord (selfInput score s o e allow)).2 : Nat) : Int) * ms := by
      calc F (selfInput score s o e allow) _ _ ≤ ((min _ _ : Nat) : Int) * ms :=
          F_upper (selfInput score s o e allow) ms hs hms ho he _ _
        _ ≤ _ := by
          have h : (min (getMaxCoord (selfInput score s o e allow)).1
              (getMaxCoord (selfInput score s o e allow)).2 : Nat) ≤
              (getMaxCoord (selfInput score s o e allow)).2 := min_le_right _ _
          exact mul_le_mul_of_nonneg_right (by exact_mod_cast h) (le_of_lt hms)
    have hmul : (s.length : Int) * ms ≤
        (((getMaxCoord (selfInput score s o e allow)).2 : Nat) : Int) * ms := by
      rw [← hrm, ← hFj]
      exact hFub
    have hle : (s.length : Int) ≤
        (((getMaxCoord (selfInput score s o e allow)).2 : Nat) : Int) :=
      le_of_mul_le_mul_right hmul hms
    have hle' : s.length ≤ (getMaxCoord (selfInput score s o e allow)).2 := by
      exact_mod_cast hle
    omega
  calc getMaxCoord (selfInput score s o e allow)
      = ((getMaxCoord (selfInput score s o e allow)).1,
         (getMaxCoord (selfInput score s o e allow)).2) := rfl
    _ = (s.length, s.length) := by rw [h1, h2]

/-- Elements of `revPref` are 1-indexed symbols of `seq1`, hence members
of the raw sequence when the index stays within its length. -/
theorem revPref_mem (w : SWMatrix) :
    ∀ k, k ≤ n1 w → ∀ c, c ∈ revPref w k → c ∈ w.seq1 := by
  intro k
  induction k with
  | zero => intro _ c hc; exact absurd hc (by simp [revPref])
  | succ k ih =>
    intro hk c hc
    rw [revPref, List.mem_cons] at hc
    rcases hc with h | h
    · have hlt : k < w.seq1.length := hk
      have hgd : sym1 w (k + 1) = w.seq1.getD k '\t' := rfl
      rw [h, hgd, List.getD_eq_getElem w.seq1 '\t' hlt]
      exact List.getElem_mem hlt
    · exact ih (by omega) c h

/-- On a self-alignment input, the traceback loop started in state 0 at
the diagonal cell `(k, k)` with enough fuel walks the diagonal all the
way down, emitting the first `k` symbols of the sequence (newest first)
on both display strings and `k` match bars, and halts at the origin. -/
theorem self_loop (score : Char → Char → Int) (s : List Char) (o e : Int)
    (allow : Bool) (ms : Int) (hms : 0 < ms) (hq : ∀ a, score a a = ms)
    (hs : ∀ a b, score a b ≤ ms) (ho : o ≤ 0) (he : e ≤ 0) :
    ∀ k fuel (t : TB), k ≤ fuel →
      tbLoop (selfInput score s o e allow) fuel 0 k k
          (M (selfInput score s o e allow) k k) t =
        (⟨t.str1 ++ revPref (selfInput score s o e allow) k,
          t.line ++ List.replicate k '|',
          t.str2 ++ revPref (selfInput score s o e allow) k⟩, 0, 0) := by
  intro k
  induction k with
  | zero =>
    intro fuel t _
    have h0 : M (selfInput score s o e allow) 0 0 = 0 := rfl
    cases fuel with
    | zero => simp [tbLoop, revPref]
    | succ f =>
      rw [h0, tbLoop]
      simp [revPref]
  | succ k ih =>
    intro fuel t hf
    cases fuel with
    | zero => exact absurd hf (by omega)
    | succ f =>
      have hMk : M (selfInput score s o e allow) (k + 1) (k + 1) =
          ((k + 1 : Nat) : Int) * ms :=
        self_diag_M score s o e allow ms hms hq hs ho he (k + 1)
      have hMne : M (selfInput score s o e allow) (k + 1) (k + 1) ≠ 0 := by
        rw [hMk]
        have hp : (0 : Int) < ((k + 1 : Nat) : Int) * ms :=
          mul_pos (by exact_mod_cast Nat.succ_pos k) hms
        exact ne_of_gt hp
      have hTM := self_diag_TM score s o e allow ms hms hq hs ho he k
      have hsym : sym2 (selfInput score s o e allow) (k + 1) =
          sym1 (selfInput score s o e allow) (k + 1) := rfl
      rw [tbLoop, if_pos ⟨hMne, (by decide : (0 : Nat) ≠ 3)⟩]
      simp only [hTM, hsym, eq_self_iff_true, if_true, Nat.add_sub_cancel]
      rw [ih f _ (by omega)]
      simp [revPref, List.replicate_succ, List.append_assoc]

/-- C7.  Aligning a non-empty sequence with itself, with a strictly
positive match score on every identical pair, non-positive mismatch
scores and non-positive penalties: the best score is
`len(s) * matchScore`, and the aligned region emitted by the traceback
walk contains no gap symbol on either display string (assuming the gap
marker is not itself a sequence symbol). -/
theorem self_alignment_score_and_gapless (score : Char → Char → Int)
    (s : List Char) (o e : Int) (allow : Bool) (ms : Int)
    (_hne : s ≠ []) (hms : 0 < ms) (hq : ∀ a, score a a = ms)
    (hmis : ∀ a b, a ≠ b → score a b ≤ 0) (ho : o ≤ 0) (he : e ≤ 0)
    (hgap : '-' ∉ s) :
    getMax (selfInput score s o e allow) = (s.length : Int) * ms ∧
    '-' ∉ (tbCoreRun (selfInput score s o e allow)).1.str1 ∧
    '-' ∉ (tbCoreRun (selfInput score s o e allow)).1.str2 := by
  have hs : ∀ a b, score a b ≤ ms := by
    intro a b
    by_cases hab : a = b
    · subst hab
      exact le_of_eq (hq a)
    · exact le_trans (hmis a b hab) (le_of_lt hms)
  have hcoord := self_getMaxCoord score s o e allow ms hms hq hs ho he
  have hloop := self_loop score s o e allow ms hms hq hs ho he s.length
    (s.length + s.length + 1) ⟨[], [], []⟩ (by omega)
  have hcore : tbCoreRun (selfInput score s o e allow) =
      (⟨revPref (selfInput score s o e allow) s.length,
        List.replicate s.length '|',
        revPref (selfInput score s o e allow) s.length⟩, 0, 0) := by
    simp only [tbCoreRun, hcoord]
    simpa using hloop
  refine ⟨self_getMax score s o e allow ms hms hq hs ho he, ?_, ?_⟩
  · rw [hcore]
    exact fun hm => hgap
      (revPref_mem (selfInput score s o e allow) s.length (le_refl _) '-' hm)
  · rw [hcore]
    exact fun hm => hgap
      (revPref_mem (selfInput score s o e allow) s.length (le_refl _) '-' hm)

/-- Witness for `self_alignment_score_and_gapless`: the one-symbol
sequence `A` aligned with itself under the scenario similarity table
scores `1 * 2 = 2` with a gap-free aligned region. -/
theorem self_alignment_score_and_gapless_witness :
    getMax (selfInput simScenario ['A'] (-2) (-1) true) = 2 ∧
    '-' ∉ (tbCoreRun (selfInput simScenario ['A'] (-2) (-1) true)).1.str1 ∧
    '-' ∉ (tbCoreRun (selfInput simScenario ['A'] (-2) (-1) true)).1.str2 := by
  have h := self_alignment_score_and_gapless simScenario ['A'] (-2) (-1) true 2
    (by decide) (by decide) (fun a => by simp [simScenario])
    (fun a b hab => by simp only [simScenario, if_neg hab]; norm_num)
    (by decide) (by decide) (by decide)
  simpa using h

end SWMatrix
